import Mathlib

/-!
# Verification of the Babble word-tracking speech playback engine

This file gives a shallow embedding of the playback core of the Babble
reading assistant and proves (or refutes) the specification claims about it.

The embedded code comes from:
* `src/utils/textParser.ts` — `buildWordMap`, `findWordAtPosition`;
* `src/services/speechService.ts` — the `SpeechService` wrapper
  (`speak`, `cancel`, utterance callbacks, the error taxonomy);
* `src/hooks/useSpeechSynthesis.ts` — `play`, `pause`, `stop`,
  `restartFromCurrentPosition`, `changeRate`, `changeVoice`, `handleError`;
* `src/stores/speechStore.ts` — the playback store and its `reset` action.

Machine strings are embedded as Lean `String` (lists of characters),
character offsets as `Nat`, word indices as `Int` (the code uses `-1` as the
"no word" sentinel), and the JavaScript speech rate as `ℚ` (the code never
does arithmetic on it, it is only selected and passed through).
-/

namespace Babble

/-- JavaScript's whitespace class `\s` (the class used by the regex `/\S+/g`
in `buildWordMap`): tab, line feed, vertical tab, form feed, carriage
return, space, NBSP, and the Unicode space separators. -/
def isWS (c : Char) : Bool :=
  decide (c.toNat = 9 ∨ c.toNat = 10 ∨ c.toNat = 11 ∨ c.toNat = 12 ∨
    c.toNat = 13 ∨ c.toNat = 32 ∨ c.toNat = 0xa0 ∨ c.toNat = 0x1680 ∨
    (0x2000 ≤ c.toNat ∧ c.toNat ≤ 0x200a) ∨ c.toNat = 0x2028 ∨
    c.toNat = 0x2029 ∨ c.toNat = 0x202f ∨ c.toNat = 0x205f ∨
    c.toNat = 0x3000 ∨ c.toNat = 0xfeff)

/-- JavaScript `String.prototype.trim`: strip leading and trailing `\s`. -/
def jsTrim (s : String) : String :=
  ⟨((s.data.dropWhile isWS).reverse.dropWhile isWS).reverse⟩

/-- JavaScript `text.slice(n)` for a non-negative index `n`. -/
def jsSlice (s : String) (n : Nat) : String :=
  ⟨s.data.drop n⟩

/-- `WordPosition` from `src/stores/speechStore.ts`: one word span.
The source field `end` is a Lean keyword and is embedded as `endPos`. -/
structure WordPosition where
  start : Nat
  endPos : Nat
  word : String
  deriving DecidableEq, Repr

/-- The scanning loop of `buildWordMap` (`src/utils/textParser.ts`):
`regex = /\S+/g` matched repeatedly with `regex.exec(text)`.  Each match is
a maximal run of non-`\s` characters; `match.index` is the absolute start
offset.  `cs` is the unscanned tail of the text and `i` its absolute
offset. -/
def buildWordMapAux : List Char → Nat → List WordPosition
  | [], _ => []
  | c :: rest, i =>
    if isWS c then
      buildWordMapAux rest (i + 1)
    else
      let run := (c :: rest).takeWhile (fun d => !isWS d)
      { start := i, endPos := i + run.length, word := ⟨run⟩ } ::
        buildWordMapAux ((c :: rest).dropWhile (fun d => !isWS d)) (i + run.length)
termination_by cs _ => cs.length
decreasing_by
  · simp only [List.length_cons]; omega
  · have hq : (fun d => !isWS d) c = true := by simpa using (by assumption : ¬ isWS c = true)
    have h1 : List.dropWhile (fun d => !isWS d) (c :: rest)
        = List.dropWhile (fun d => !isWS d) rest := List.dropWhile_cons_of_pos hq
    have h2 := (List.dropWhile_sublist (l := rest) (fun d => !isWS d)).length_le
    simp only [h1, List.length_cons]
    omega

/-- `buildWordMap(text)` from `src/utils/textParser.ts`. -/
def buildWordMap (text : String) : List WordPosition :=
  buildWordMapAux text.data 0

/-- The `for` loop of `findWordAtPosition`: scanning `positions` with the
running loop counter `idx`; `total` is the length of the whole array, used
by the fall-through `return positions.length - 1`. -/
def findWordAux (charIndex : Nat) (total : Nat) : List WordPosition → Nat → Int
  | [], _ => (total : Int) - 1
  | p :: rest, idx =>
    if p.start ≤ charIndex ∧ charIndex < p.endPos then (idx : Int)
    else if charIndex < p.start then max 0 ((idx : Int) - 1)
    else findWordAux charIndex total rest (idx + 1)

/-- `findWordAtPosition(charIndex, positions)` from
`src/utils/textParser.ts`.  Returns `positions.length - 1` (hence `-1` on
an empty array) when `charIndex` is past every word. -/
def findWordAtPosition (charIndex : Nat) (positions : List WordPosition) : Int :=
  findWordAux charIndex positions.length positions 0

/-- `SpeechErrorType` from `src/services/speechService.ts`. -/
inductive SpeechErrorType where
  | UNSUPPORTED | NO_VOICES | CANCELLED | INTERRUPTED
  | AUDIO_BUSY | NETWORK | NOT_ALLOWED | UNKNOWN
  deriving DecidableEq, Repr

/-- The `errorMap[event.error] || 'UNKNOWN'` lookup in `utterance.onerror`
(`src/services/speechService.ts`): categorizes a raw engine error string. -/
def speechErrorType (kind : String) : SpeechErrorType :=
  if kind = "audio-busy" then .AUDIO_BUSY
  else if kind = "network" then .NETWORK
  else if kind = "not-allowed" then .NOT_ALLOWED
  else .UNKNOWN

/-- A toast pushed through `useUIStore.addToast` — the user-visible notice
channel of the hook. -/
structure Toast where
  title : String
  description : String
  deriving DecidableEq, Repr

/-- The playback fields of `useSpeechStore` (`src/stores/speechStore.ts`).
`selectedVoiceURI : string | null` becomes `Option String`; the JavaScript
number `rate` becomes `ℚ` (only ever selected, never computed with). -/
structure StoreState where
  isPlaying : Bool
  isPaused : Bool
  selectedVoiceURI : Option String
  rate : ℚ
  currentCharIndex : Nat
  currentWordIndex : Int
  wordPositions : List WordPosition
  plainText : String
  startFromPosition : Nat
  deriving DecidableEq, Repr

/-- One engine invocation: a `SpeechSynthesisUtterance` created by
`SpeechService.speak` together with the callback closure attached to it.
`gen` identifies the invocation (the model's name for "this utterance
object"); `offsetAdjustment` and `wordPositions` are the values captured by
the `onboundary`/`onBoundary` closures of that particular `speak` call.
Handlers stay attached to the utterance object after `cancel()` — the list
of invocations is never pruned, which is exactly what lets the engine
deliver a queued event to a defunct utterance. -/
structure Invocation where
  gen : Nat
  utteranceText : String
  offsetAdjustment : Nat
  wordPositions : List WordPosition
  voiceURI : Option String
  rate : ℚ
  deriving DecidableEq, Repr

/-- The whole observable system: the speech store, the document store's
`currentDocument.lastReadPosition`, the settings defaults, the engine
wrapper (`current` = `SpeechService.utterance`, `nextGen` the next fresh
utterance identity), the record of every utterance ever created (their
handler closures stay alive), and the toasts emitted so far.
`extractedText` stands for `extractPlainText(editorContent)` — the
DOM-delegating plain-text extraction (spec §4.3), an external collaborator
modelled by its result. -/
structure World where
  supported : Bool
  store : StoreState
  extractedText : String
  defaultVoiceURI : Option String
  defaultRate : ℚ
  lastReadPosition : Nat
  nextGen : Nat
  current : Option Nat
  invocations : List Invocation
  toasts : List Toast
  deriving DecidableEq, Repr

/-- `reset` from `src/stores/speechStore.ts`: back to Idle, offset 0,
word index -1; all other store fields are left as they are. -/
def resetStore (s : StoreState) : StoreState :=
  { s with isPlaying := false, isPaused := false,
           currentCharIndex := 0, currentWordIndex := -1 }

/-- `SpeechService.cancel`: `synthesis.cancel()` and `utterance = null`.
The old utterance object keeps its handlers (nothing detaches them). -/
def serviceCancel (w : World) : World :=
  { w with current := none }

/-- JavaScript `a || b` on `string | null` values: `null` and `''` fall
through to `b`. -/
def jsOrStr : Option String → Option String → Option String
  | some s, b => if s = "" then b else some s
  | none, b => b

/-- `SpeechService.speak(text, options)` (`src/services/speechService.ts`)
composed with the hook's `handleError` for the synchronous UNSUPPORTED
path.  Cancels any current utterance, slices the text from `startPosition`
(`options.startPosition ? text.slice(...) : text`), records the new
utterance with its captured closure data, and makes it current. -/
def serviceSpeak (w : World) (text : String) (voiceURI : Option String)
    (rate : ℚ) (startPosition : Nat) (capturedWP : List WordPosition) : World :=
  if w.supported = false then
    { w with store := resetStore w.store,
             toasts := w.toasts ++
               [⟨"Speech Error", "Speech synthesis is not supported in this browser"⟩] }
  else
    let w1 := serviceCancel w
    let textToSpeak := if startPosition ≠ 0 then jsSlice text startPosition else text
    { w1 with
        nextGen := w1.nextGen + 1,
        current := some w1.nextGen,
        invocations := w1.invocations ++
          [⟨w1.nextGen, textToSpeak, startPosition, capturedWP, voiceURI, rate⟩] }

/-- `play()` from `src/hooks/useSpeechSynthesis.ts`.  Resumes when paused;
otherwise extracts and trims the text, refuses with a "No content" toast
when empty, else builds the word map, marks the store playing and invokes
the engine from `startFromPosition` with `voice = selectedVoiceURI ||
defaultVoiceURI` and `rate = rate || defaultRate`. -/
def hookPlay (w : World) : World :=
  if w.store.isPaused then
    { w with store := { w.store with isPaused := false, isPlaying := true } }
  else
    let plainText := jsTrim w.extractedText
    if plainText = "" then
      { w with toasts := w.toasts ++ [⟨"No content", "Please add some text to read."⟩] }
    else
      let wordPositions := buildWordMap plainText
      let st := { w.store with
                    plainText := plainText, wordPositions := wordPositions,
                    isPlaying := true, isPaused := false }
      let voiceToUse := jsOrStr w.store.selectedVoiceURI w.defaultVoiceURI
      let rateToUse := if w.store.rate = 0 then w.defaultRate else w.store.rate
      serviceSpeak { w with store := st } plainText voiceToUse rateToUse
        w.store.startFromPosition wordPositions

/-- `pause()` from the hook: `speechService.pause(); setPaused(true);
setPlaying(false)`. -/
def hookPause (w : World) : World :=
  { w with store := { w.store with isPaused := true, isPlaying := false } }

/-- `stop()` from the hook: `speechService.cancel(); reset()`. -/
def hookStop (w : World) : World :=
  let w1 := serviceCancel w
  { w1 with store := resetStore w1.store }

/-- `restartFromCurrentPosition(options)` from the hook: bail out unless
playing-and-not-paused and the session has text; otherwise cancel and
re-invoke the engine on the same `plainText` with `startPosition =
currentCharIndex`, `voice = options.voiceURI ?? selectedVoiceURI ??
defaultVoiceURI`, `rate = options.rate ?? rate`. -/
def hookRestartFromCurrentPosition (w : World)
    (oVoice : Option String) (oRate : Option ℚ) : World :=
  if ¬ w.store.isPlaying ∨ w.store.isPaused then w
  else if w.store.plainText = "" then w
  else
    let w1 := serviceCancel w
    let voiceToUse := (oVoice.orElse fun _ => w.store.selectedVoiceURI).orElse
      fun _ => w.defaultVoiceURI
    let rateToUse := oRate.getD w.store.rate
    serviceSpeak w1 w.store.plainText voiceToUse rateToUse
      w.store.currentCharIndex w.store.wordPositions

/-- `changeRate(newRate)` from the hook. -/
def changeRate (w : World) (newRate : ℚ) : World :=
  hookRestartFromCurrentPosition w none (some newRate)

/-- `changeVoice(newVoiceURI)` from the hook. -/
def changeVoice (w : World) (newVoiceURI : String) : World :=
  hookRestartFromCurrentPosition w (some newVoiceURI) none

/-- `handleClick` in `TextEditor.tsx` / comment navigation: records an
explicit seek position via `setStartPosition`. -/
def clickSetStartPosition (w : World) (pos : Nat) : World :=
  { w with store := { w.store with startFromPosition := pos } }

/-- Which utterance object (if any) an engine event addresses. -/
def findInvocation (w : World) (gen : Nat) : Option Invocation :=
  w.invocations.find? fun inv => inv.gen == gen

/-- The engine fires `onboundary` on utterance `gen`.  The utterance's
handler (`src/services/speechService.ts` line 269) filters on
`event.name === 'word'`, adds the captured `offsetAdjustment`, and calls
the hook's `onBoundary`, which resolves the word index against the
captured `wordPositions`, writes `setCurrentWord`, and propagates
`updateLastReadPosition`.  No session identity or generation check is
performed anywhere on this path. -/
def deliverBoundary (w : World) (gen : Nat) (name : String)
    (charIndex : Nat) : World :=
  match findInvocation w gen with
  | none => w
  | some inv =>
    if name = "word" then
      let adjustedIndex := charIndex + inv.offsetAdjustment
      let wordIndex := findWordAtPosition adjustedIndex inv.wordPositions
      { w with
          store := { w.store with
                       currentCharIndex := adjustedIndex,
                       currentWordIndex := wordIndex },
          lastReadPosition := adjustedIndex }
    else w

/-- The engine fires `onend` on utterance `gen`: the hook's `onEnd` runs
`reset()` and `updateLastReadPosition(0)`. -/
def deliverEnd (w : World) (gen : Nat) : World :=
  match findInvocation w gen with
  | none => w
  | some _ =>
    { w with store := resetStore w.store, lastReadPosition := 0 }

/-- The engine fires `onerror` on utterance `gen` with raw error string
`kind`.  The utterance handler ignores `'canceled'`/`'interrupted'`;
otherwise it builds `SpeechError(speechErrorType kind, ...)` and calls the
hook's `handleError`, which runs `reset()` and emits a destructive toast
with the error message. -/
def deliverError (w : World) (gen : Nat) (kind : String) : World :=
  match findInvocation w gen with
  | none => w
  | some _ =>
    if kind = "canceled" ∨ kind = "interrupted" then w
    else
      { w with
          store := resetStore w.store,
          toasts := w.toasts ++ [⟨"Speech Error", "Speech error: " ++ kind⟩] }

/-- The playback store's initial state (`useSpeechStore` initial values). -/
def initialStore : StoreState :=
  { isPlaying := false, isPaused := false, selectedVoiceURI := none,
    rate := 1, currentCharIndex := 0, currentWordIndex := -1,
    wordPositions := [], plainText := "", startFromPosition := 0 }

/-- A freshly loaded world: engine supported, no utterance yet, default
settings, a document whose extraction is `extracted` and whose persisted
last-read position is `lastRead`. -/
def initialWorld (extracted : String) (lastRead : Nat) : World :=
  { supported := true, store := initialStore, extractedText := extracted,
    defaultVoiceURI := none, defaultRate := 1, lastReadPosition := lastRead,
    nextGen := 0, current := none, invocations := [], toasts := [] }

/-! ## Small helper lemmas about the model -/

theorem jsSlice_zero (s : String) : jsSlice s 0 = s := by
  cases s; rfl

/-- `find?` skips a prefix on which the predicate fails everywhere. -/
theorem find?_append_left_none {α : Type} {p : α → Bool} {l₁ l₂ : List α}
    (h : ∀ x ∈ l₁, p x = false) : (l₁ ++ l₂).find? p = l₂.find? p := by
  rw [List.find?_append]
  have : l₁.find? p = none := List.find?_eq_none.mpr (by
    intro x hx
    simp [h x hx])
  rw [this, Option.none_or]

/-- Concrete word map used by several concrete evaluations below
(`buildWordMapAux` is well-founded recursive, so concrete values are
established by `simp` with its equations rather than by kernel
reduction). -/
theorem buildWordMap_ab_cd : buildWordMap "ab cd" = [⟨0, 2, "ab"⟩, ⟨3, 5, "cd"⟩] := by
  simp [buildWordMap, buildWordMapAux, isWS]

/-! ## Claim theorems: the playback state machine -/

/-- C9.  `stop()` is idempotent: from any state, calling `stop()` twice in
a row leaves the playback state identical to calling it once — status
Idle (`isPlaying = false`, `isPaused = false`), `currentCharIndex = 0`,
`currentWordIndex = -1`. -/
theorem stop_idempotent (w : World) :
    hookStop (hookStop w) = hookStop w ∧
    (hookStop w).store.isPlaying = false ∧
    (hookStop w).store.isPaused = false ∧
    (hookStop w).store.currentCharIndex = 0 ∧
    (hookStop w).store.currentWordIndex = -1 := by
  refine ⟨?_, rfl, rfl, rfl, rfl⟩
  rfl

/-- C8.  `play()` from Idle with an extraction that trims to empty: no
session is created (store untouched, no new engine invocation, no current
utterance change), only the "No content" toast is emitted. -/
theorem play_no_content (w : World)
    (_hid : w.store.isPlaying = false) (hpa : w.store.isPaused = false)
    (ht : jsTrim w.extractedText = "") :
    (hookPlay w).store = w.store ∧
    (hookPlay w).nextGen = w.nextGen ∧
    (hookPlay w).invocations = w.invocations ∧
    (hookPlay w).current = w.current ∧
    (hookPlay w).lastReadPosition = w.lastReadPosition ∧
    (hookPlay w).toasts =
      w.toasts ++ [⟨"No content", "Please add some text to read."⟩] := by
  simp only [hookPlay, hpa, Bool.false_eq_true, if_false, ht, if_pos rfl]
  exact ⟨rfl, rfl, rfl, rfl, rfl, rfl⟩

/-- Witness for C8 at a whitespace-only document. -/
theorem play_no_content_witness :
    (hookPlay (initialWorld "  " 7)).store = (initialWorld "  " 7).store ∧
    (hookPlay (initialWorld "  " 7)).nextGen = (initialWorld "  " 7).nextGen ∧
    (hookPlay (initialWorld "  " 7)).invocations = (initialWorld "  " 7).invocations ∧
    (hookPlay (initialWorld "  " 7)).current = (initialWorld "  " 7).current ∧
    (hookPlay (initialWorld "  " 7)).lastReadPosition = (initialWorld "  " 7).lastReadPosition ∧
    (hookPlay (initialWorld "  " 7)).toasts =
      (initialWorld "  " 7).toasts ++ [⟨"No content", "Please add some text to read."⟩] :=
  play_no_content (initialWorld "  " 7) (by decide) (by decide) (by decide)

/-- C1 (code evaluated at the failing input).  Start playback of
`"ab cd"`, `stop()` it, then let the engine deliver the defunct first
utterance's queued word-boundary event at relative offset 3: the handler
runs with no session identity check and mutates `currentCharIndex` to 3
and `currentWordIndex` to 1, although `stop()` had reset them to 0 / -1. -/
theorem stale_boundary_after_stop_mutates :
    (hookStop (hookPlay (initialWorld "ab cd" 0))).store.currentCharIndex = 0 ∧
    (hookStop (hookPlay (initialWorld "ab cd" 0))).store.currentWordIndex = -1 ∧
    (deliverBoundary (hookStop (hookPlay (initialWorld "ab cd" 0)))
        0 "word" 3).store.currentCharIndex = 3 ∧
    (deliverBoundary (hookStop (hookPlay (initialWorld "ab cd" 0)))
        0 "word" 3).store.currentWordIndex = 1 := by
  refine ⟨rfl, rfl, ?_, ?_⟩ <;>
    simp [hookPlay, hookStop, serviceCancel, serviceSpeak, resetStore, deliverBoundary,
      findInvocation, initialWorld, initialStore, jsTrim, isWS, buildWordMap_ab_cd,
      findWordAtPosition, findWordAux]

/-- C3 (code evaluated at the failing input).  A fresh document whose
persisted `lastReadPosition` is 42, with no prior click: `play()` starts
the engine invocation at `startOffset = 0` (the `startFromPosition`
default), speaking the whole text — the persisted position is never read
back into the session. -/
theorem play_ignores_lastReadPosition :
    (hookPlay (initialWorld "hello world" 42)).lastReadPosition = 42 ∧
    (hookPlay (initialWorld "hello world" 42)).invocations =
      [⟨0, "hello world", 0, buildWordMap "hello world", none, 1⟩] ∧
    (hookPlay (initialWorld "hello world" 42)).store.currentCharIndex = 0 := by
  refine ⟨rfl, ?_, rfl⟩
  rfl

/-- C7.  Engine error callbacks: `'canceled'`/`'interrupted'` (the kinds
produced by `stop()` or a restart's `cancel()`) are discarded with no state
change and no toast; every other raw kind is categorized by the
`errorMap || 'UNKNOWN'` translation (`audio-busy ↦ AUDIO_BUSY`,
`network ↦ NETWORK`, `not-allowed ↦ NOT_ALLOWED`, anything else
`↦ UNKNOWN`), the session is torn down to Idle (offset 0, word index -1)
and a single user-visible toast is emitted.  All the handlers are total
Lean functions, so no case escapes as an unhandled exception. -/
theorem error_callback_filtering (w : World) (gen : Nat) (kind : String)
    (hinv : (findInvocation w gen).isSome = true) :
    ((kind = "canceled" ∨ kind = "interrupted") → deliverError w gen kind = w) ∧
    (kind ≠ "canceled" → kind ≠ "interrupted" →
      (deliverError w gen kind).store = resetStore w.store ∧
      (deliverError w gen kind).store.isPlaying = false ∧
      (deliverError w gen kind).store.isPaused = false ∧
      (deliverError w gen kind).store.currentCharIndex = 0 ∧
      (deliverError w gen kind).store.currentWordIndex = -1 ∧
      (deliverError w gen kind).toasts =
        w.toasts ++ [⟨"Speech Error", "Speech error: " ++ kind⟩] ∧
      (deliverError w gen kind).invocations = w.invocations ∧
      (deliverError w gen kind).current = w.current) ∧
    speechErrorType "audio-busy" = SpeechErrorType.AUDIO_BUSY ∧
    speechErrorType "network" = SpeechErrorType.NETWORK ∧
    speechErrorType "not-allowed" = SpeechErrorType.NOT_ALLOWED ∧
    (kind ≠ "audio-busy" → kind ≠ "network" → kind ≠ "not-allowed" →
      speechErrorType kind = SpeechErrorType.UNKNOWN) := by
  obtain ⟨inv, hfind⟩ := Option.isSome_iff_exists.mp hinv
  refine ⟨?_, ?_, rfl, rfl, rfl, ?_⟩
  · intro hk
    simp [deliverError, hfind, hk]
  · intro h1 h2
    have hd : deliverError w gen kind =
        { w with store := resetStore w.store,
                 toasts := w.toasts ++ [⟨"Speech Error", "Speech error: " ++ kind⟩] } := by
      simp only [deliverError, hfind, if_neg (not_or.mpr ⟨h1, h2⟩)]
    rw [hd]
    exact ⟨rfl, rfl, rfl, rfl, rfl, rfl, rfl, rfl⟩
  · intro h1 h2 h3
    simp [speechErrorType, h1, h2, h3]

/-- Witness for C7: a live invocation, one suppressed kind and the fact
block for the surfaced kind `'network'`. -/
theorem error_callback_filtering_witness :
    (("canceled" = "canceled" ∨ "canceled" = "interrupted") →
      deliverError (hookPlay (initialWorld "ab cd" 0)) 0 "canceled" =
        hookPlay (initialWorld "ab cd" 0)) ∧
    ("network" ≠ "canceled" → "network" ≠ "interrupted" →
      (deliverError (hookPlay (initialWorld "ab cd" 0)) 0 "network").store =
        resetStore (hookPlay (initialWorld "ab cd" 0)).store ∧
      (deliverError (hookPlay (initialWorld "ab cd" 0)) 0 "network").store.isPlaying = false ∧
      (deliverError (hookPlay (initialWorld "ab cd" 0)) 0 "network").store.isPaused = false ∧
      (deliverError (hookPlay (initialWorld "ab cd" 0)) 0 "network").store.currentCharIndex = 0 ∧
      (deliverError (hookPlay (initialWorld "ab cd" 0)) 0 "network").store.currentWordIndex = -1 ∧
      (deliverError (hookPlay (initialWorld "ab cd" 0)) 0 "network").toasts =
        (hookPlay (initialWorld "ab cd" 0)).toasts ++
          [⟨"Speech Error", "Speech error: " ++ "network"⟩] ∧
      (deliverError (hookPlay (initialWorld "ab cd" 0)) 0 "network").invocations =
        (hookPlay (initialWorld "ab cd" 0)).invocations ∧
      (deliverError (hookPlay (initialWorld "ab cd" 0)) 0 "network").current =
        (hookPlay (initialWorld "ab cd" 0)).current) ∧
    speechErrorType "audio-busy" = SpeechErrorType.AUDIO_BUSY ∧
    speechErrorType "network" = SpeechErrorType.NETWORK ∧
    speechErrorType "not-allowed" = SpeechErrorType.NOT_ALLOWED :=
  ⟨(error_callback_filtering (hookPlay (initialWorld "ab cd" 0)) 0 "canceled"
      (by decide)).1,
   (error_callback_filtering (hookPlay (initialWorld "ab cd" 0)) 0 "network"
      (by decide)).2.1,
   rfl, rfl, rfl⟩

/-- C4 fails on the code (counterexample): with the session Speaking
(`isPlaying = true`, `isPaused = false`) at offset 3 of `"ab cd"`, another
`play()` is not a no-op — it issues a fresh engine invocation (the
invocation counter advances and a second utterance record appears). -/
theorem play_while_speaking_changes_state :
    (deliverBoundary (hookPlay (initialWorld "ab cd" 0)) 0 "word" 3).store.isPlaying = true ∧
    (deliverBoundary (hookPlay (initialWorld "ab cd" 0)) 0 "word" 3).store.isPaused = false ∧
    (hookPlay (deliverBoundary (hookPlay (initialWorld "ab cd" 0)) 0 "word" 3)).nextGen =
      (deliverBoundary (hookPlay (initialWorld "ab cd" 0)) 0 "word" 3).nextGen + 1 ∧
    (hookPlay (deliverBoundary (hookPlay (initialWorld "ab cd" 0)) 0 "word" 3)).invocations.length =
      (deliverBoundary (hookPlay (initialWorld "ab cd" 0)) 0 "word" 3).invocations.length + 1 := by
  refine ⟨rfl, rfl, rfl, ?_⟩
  simp [hookPlay, serviceSpeak, serviceCancel, deliverBoundary, findInvocation,
    initialWorld, initialStore, jsTrim, isWS, resetStore]

/-- C4 amended: `play()` has no Speaking guard.  While
`isPlaying ∧ ¬isPaused` with nonempty extracted text it behaves exactly
like a fresh start: it re-extracts and trims the text, rebuilds the word
map, cancels the current utterance and issues a new engine invocation
starting from `startFromPosition` — rather than being a no-op. -/
theorem play_while_speaking_restarts (w : World)
    (hsup : w.supported = true)
    (_hp : w.store.isPlaying = true) (hpa : w.store.isPaused = false)
    (ht : jsTrim w.extractedText ≠ "") :
    (hookPlay w).nextGen = w.nextGen + 1 ∧
    (hookPlay w).current = some w.nextGen ∧
    (hookPlay w).store.isPlaying = true ∧
    (hookPlay w).store.isPaused = false ∧
    (hookPlay w).store.plainText = jsTrim w.extractedText ∧
    (hookPlay w).store.wordPositions = buildWordMap (jsTrim w.extractedText) ∧
    (hookPlay w).invocations = w.invocations ++
      [⟨w.nextGen,
        (if w.store.startFromPosition ≠ 0 then
           jsSlice (jsTrim w.extractedText) w.store.startFromPosition
         else jsTrim w.extractedText),
        w.store.startFromPosition,
        buildWordMap (jsTrim w.extractedText),
        jsOrStr w.store.selectedVoiceURI w.defaultVoiceURI,
        (if w.store.rate = 0 then w.defaultRate else w.store.rate)⟩] := by
  simp only [hookPlay, hpa, Bool.false_eq_true, if_false, if_neg ht,
    serviceSpeak, hsup, serviceCancel]
  exact ⟨rfl, rfl, rfl, rfl, rfl, rfl, rfl⟩

/-- Witness for the amended C4 at the Speaking world reached by playing
`"ab cd"` and receiving the boundary event for `"cd"`. -/
theorem play_while_speaking_restarts_witness :
    (hookPlay (deliverBoundary (hookPlay (initialWorld "ab cd" 0)) 0 "word" 3)).nextGen =
      (deliverBoundary (hookPlay (initialWorld "ab cd" 0)) 0 "word" 3).nextGen + 1 ∧
    (hookPlay (deliverBoundary (hookPlay (initialWorld "ab cd" 0)) 0 "word" 3)).current =
      some (deliverBoundary (hookPlay (initialWorld "ab cd" 0)) 0 "word" 3).nextGen ∧
    (hookPlay (deliverBoundary (hookPlay (initialWorld "ab cd" 0)) 0 "word" 3)).store.isPlaying = true ∧
    (hookPlay (deliverBoundary (hookPlay (initialWorld "ab cd" 0)) 0 "word" 3)).store.isPaused = false ∧
    (hookPlay (deliverBoundary (hookPlay (initialWorld "ab cd" 0)) 0 "word" 3)).store.plainText =
      jsTrim (deliverBoundary (hookPlay (initialWorld "ab cd" 0)) 0 "word" 3).extractedText :=
  ⟨(play_while_speaking_restarts _ rfl (by decide) (by decide) (by decide)).1,
   (play_while_speaking_restarts _ rfl (by decide) (by decide) (by decide)).2.1,
   (play_while_speaking_restarts _ rfl (by decide) (by decide) (by decide)).2.2.1,
   (play_while_speaking_restarts _ rfl (by decide) (by decide) (by decide)).2.2.2.1,
   (play_while_speaking_restarts _ rfl (by decide) (by decide) (by decide)).2.2.2.2.1⟩

/-- What `restartFromCurrentPosition` does when the session is Speaking
with text: the store is untouched (no transient reset of the displayed
position), the old utterance is cancelled and exactly one new invocation
is issued, on the suffix of the session text starting at the captured
`currentCharIndex`, with `offsetAdjustment` equal to that offset and the
live session's `wordPositions` captured by the new closure. -/
theorem restart_spec (w : World) (oV : Option String) (oR : Option ℚ)
    (hsup : w.supported = true) (hp : w.store.isPlaying = true)
    (hpa : w.store.isPaused = false) (ht : w.store.plainText ≠ "") :
    (hookRestartFromCurrentPosition w oV oR).nextGen = w.nextGen + 1 ∧
    (hookRestartFromCurrentPosition w oV oR).current = some w.nextGen ∧
    (hookRestartFromCurrentPosition w oV oR).store = w.store ∧
    (hookRestartFromCurrentPosition w oV oR).invocations = w.invocations ++
      [⟨w.nextGen, jsSlice w.store.plainText w.store.currentCharIndex,
        w.store.currentCharIndex, w.store.wordPositions,
        (oV.orElse fun _ => w.store.selectedVoiceURI).orElse
          (fun _ => w.defaultVoiceURI),
        oR.getD w.store.rate⟩] := by
  have hguard : ¬ (¬ w.store.isPlaying = true ∨ w.store.isPaused = true) := by
    simp [hp, hpa]
  have hslice : (if w.store.currentCharIndex ≠ 0 then
      jsSlice w.store.plainText w.store.currentCharIndex else w.store.plainText) =
      jsSlice w.store.plainText w.store.currentCharIndex := by
    by_cases h0 : w.store.currentCharIndex = 0
    · rw [if_neg (by simp [h0]), h0, jsSlice_zero]
    · rw [if_pos h0]
  simp only [hookRestartFromCurrentPosition, if_neg hguard, if_neg ht,
    serviceSpeak, hsup, Bool.true_eq_false, if_false, serviceCancel, hslice]
  simp

/-- After a restart, the engine event addressed to the new utterance finds
the new closure (all previously created utterances have smaller
generation numbers). -/
theorem findInvocation_after_restart (w : World) (oV : Option String) (oR : Option ℚ)
    (hsup : w.supported = true) (hp : w.store.isPlaying = true)
    (hpa : w.store.isPaused = false) (ht : w.store.plainText ≠ "")
    (hfresh : ∀ inv ∈ w.invocations, inv.gen < w.nextGen) :
    findInvocation (hookRestartFromCurrentPosition w oV oR) w.nextGen =
      some ⟨w.nextGen, jsSlice w.store.plainText w.store.currentCharIndex,
        w.store.currentCharIndex, w.store.wordPositions,
        (oV.orElse fun _ => w.store.selectedVoiceURI).orElse
          (fun _ => w.defaultVoiceURI),
        oR.getD w.store.rate⟩ := by
  obtain ⟨-, -, -, hinvs⟩ := restart_spec w oV oR hsup hp hpa ht
  unfold findInvocation
  rw [hinvs, find?_append_left_none, List.find?_cons]
  · simp
  · intro inv hmem
    exact beq_eq_false_iff_ne.mpr (Nat.ne_of_lt (hfresh inv hmem))

/-- C2.  While Speaking at absolute offset `k` with the word index the
resolver assigns to `k`, both `changeVoice` and `changeRate` cancel the
running utterance and start a new invocation on `text.slice(k)` for the
same session text with `startOffset = k`; the displayed
`currentCharIndex`/`currentWordIndex` are not touched by the restart
(no transient -1/0), and the new utterance's first boundary event at
relative offset 0 resolves back to absolute offset `k` and the same word
index. -/
theorem restart_in_place_preserves_position (w : World) (v : String) (r : ℚ) (k : Nat)
    (hsup : w.supported = true) (hp : w.store.isPlaying = true)
    (hpa : w.store.isPaused = false) (ht : w.store.plainText ≠ "")
    (hk : w.store.currentCharIndex = k)
    (hw : w.store.currentWordIndex = findWordAtPosition k w.store.wordPositions)
    (hfresh : ∀ inv ∈ w.invocations, inv.gen < w.nextGen) :
    ((serviceCancel w).store.currentCharIndex = k ∧
     (serviceCancel w).store.currentWordIndex = w.store.currentWordIndex) ∧
    ((changeVoice w v).store.currentCharIndex = k ∧
     (changeVoice w v).store.currentWordIndex = w.store.currentWordIndex ∧
     (changeVoice w v).nextGen = w.nextGen + 1 ∧
     (changeVoice w v).current = some w.nextGen ∧
     (changeVoice w v).invocations = w.invocations ++
       [⟨w.nextGen, jsSlice w.store.plainText k, k, w.store.wordPositions,
         some v, w.store.rate⟩] ∧
     (deliverBoundary (changeVoice w v) w.nextGen "word" 0).store.currentCharIndex = k ∧
     (deliverBoundary (changeVoice w v) w.nextGen "word" 0).store.currentWordIndex
       = w.store.currentWordIndex) ∧
    ((changeRate w r).store.currentCharIndex = k ∧
     (changeRate w r).store.currentWordIndex = w.store.currentWordIndex ∧
     (changeRate w r).nextGen = w.nextGen + 1 ∧
     (changeRate w r).current = some w.nextGen ∧
     (changeRate w r).invocations = w.invocations ++
       [⟨w.nextGen, jsSlice w.store.plainText k, k, w.store.wordPositions,
         w.store.selectedVoiceURI.orElse (fun _ => w.defaultVoiceURI), r⟩] ∧
     (deliverBoundary (changeRate w r) w.nextGen "word" 0).store.currentCharIndex = k ∧
     (deliverBoundary (changeRate w r) w.nextGen "word" 0).store.currentWordIndex
       = w.store.currentWordIndex) := by
  obtain ⟨hg1, hc1, hs1, hi1⟩ := restart_spec w (some v) none hsup hp hpa ht
  obtain ⟨hg2, hc2, hs2, hi2⟩ := restart_spec w none (some r) hsup hp hpa ht
  have hf1 := findInvocation_after_restart w (some v) none hsup hp hpa ht hfresh
  have hf2 := findInvocation_after_restart w none (some r) hsup hp hpa ht hfresh
  have hb1 : (deliverBoundary (changeVoice w v) w.nextGen "word" 0).store.currentCharIndex = k ∧
      (deliverBoundary (changeVoice w v) w.nextGen "word" 0).store.currentWordIndex
        = w.store.currentWordIndex := by
    simp only [changeVoice, deliverBoundary, hf1, if_pos rfl, Nat.zero_add, hk]
    exact ⟨rfl, hw.symm⟩
  have hb2 : (deliverBoundary (changeRate w r) w.nextGen "word" 0).store.currentCharIndex = k ∧
      (deliverBoundary (changeRate w r) w.nextGen "word" 0).store.currentWordIndex
        = w.store.currentWordIndex := by
    simp only [changeRate, deliverBoundary, hf2, if_pos rfl, Nat.zero_add, hk]
    exact ⟨rfl, hw.symm⟩
  refine ⟨⟨hk, rfl⟩, ⟨?_, ?_, hg1, hc1, ?_, hb1.1, hb1.2⟩, ⟨?_, ?_, hg2, hc2, ?_, hb2.1, hb2.2⟩⟩
  · rw [show (changeVoice w v).store = w.store from hs1, hk]
  · rw [show (changeVoice w v).store = w.store from hs1]
  · rw [show (changeVoice w v).invocations = _ from hi1, hk]
    rfl
  · rw [show (changeRate w r).store = w.store from hs2, hk]
  · rw [show (changeRate w r).store = w.store from hs2]
  · rw [show (changeRate w r).invocations = _ from hi2, hk]
    rfl

/-- Witness for C2: the session speaking `"ab cd"` at offset 3 (word 1),
restarted by `changeVoice "v2"`. -/
theorem restart_in_place_preserves_position_witness :
    (changeVoice (deliverBoundary (hookPlay (initialWorld "ab cd" 0)) 0 "word" 3)
        "v2").store.currentCharIndex = 3 ∧
    (changeVoice (deliverBoundary (hookPlay (initialWorld "ab cd" 0)) 0 "word" 3)
        "v2").store.currentWordIndex =
      (deliverBoundary (hookPlay (initialWorld "ab cd" 0)) 0 "word" 3).store.currentWordIndex ∧
    (deliverBoundary
        (changeVoice (deliverBoundary (hookPlay (initialWorld "ab cd" 0)) 0 "word" 3) "v2")
        (deliverBoundary (hookPlay (initialWorld "ab cd" 0)) 0 "word" 3).nextGen
        "word" 0).store.currentCharIndex = 3 ∧
    (deliverBoundary
        (changeVoice (deliverBoundary (hookPlay (initialWorld "ab cd" 0)) 0 "word" 3) "v2")
        (deliverBoundary (hookPlay (initialWorld "ab cd" 0)) 0 "word" 3).nextGen
        "word" 0).store.currentWordIndex =
      (deliverBoundary (hookPlay (initialWorld "ab cd" 0)) 0 "word" 3).store.currentWordIndex := by
  obtain ⟨-, ⟨h1, h2, -, -, -, h6, h7⟩, -⟩ :=
    restart_in_place_preserves_position
      (deliverBoundary (hookPlay (initialWorld "ab cd" 0)) 0 "word" 3) "v2" 1 3
      rfl rfl rfl (by decide) rfl rfl (by decide)
  exact ⟨h1, h2, h6, h7⟩

/-! ## Structural lemmas about `buildWordMap` -/

theorem buildWordMapAux_bounds (cs : List Char) (i : Nat) :
    ∀ p ∈ buildWordMapAux cs i, i ≤ p.start ∧ p.start < p.endPos ∧ p.endPos ≤ i + cs.length := by
  induction cs, i using buildWordMapAux.induct with
  | case1 i => simp [buildWordMapAux]
  | case2 c rest i hws ih =>
    intro p hp
    rw [buildWordMapAux, if_pos hws] at hp
    obtain ⟨h1, h2, h3⟩ := ih p hp
    refine ⟨by omega, h2, ?_⟩
    simp only [List.length_cons]
    omega
  | case3 c rest i hws run ih =>
    have hrv : run = (c :: rest).takeWhile (fun d => !isWS d) := rfl
    rw [hrv] at ih
    intro p hp
    rw [buildWordMapAux, if_neg hws] at hp
    rw [List.mem_cons] at hp
    have hlen : ((c :: rest).takeWhile (fun d => !isWS d)).length +
        ((c :: rest).dropWhile (fun d => !isWS d)).length = (c :: rest).length := by
      rw [← List.length_append, List.takeWhile_append_dropWhile]
    have hrun : 0 < ((c :: rest).takeWhile (fun d => !isWS d)).length := by
      rw [List.takeWhile_cons_of_pos (by simpa using hws)]
      simp
    rcases hp with hp | hp
    · subst hp
      refine ⟨le_refl _, by simpa using hrun, ?_⟩
      show i + ((c :: rest).takeWhile (fun d => !isWS d)).length ≤ i + (c :: rest).length
      omega
    · obtain ⟨h1, h2, h3⟩ := ih p hp
      exact ⟨by omega, h2, by omega⟩

theorem buildWordMapAux_chain (cs : List Char) (i : Nat) :
    List.Chain' (fun a b => a.endPos ≤ b.start) (buildWordMapAux cs i) := by
  induction cs, i using buildWordMapAux.induct with
  | case1 i => simp [buildWordMapAux]
  | case2 c rest i hws ih =>
    rw [buildWordMapAux, if_pos hws]
    exact ih
  | case3 c rest i hws run ih =>
    have hrv : run = (c :: rest).takeWhile (fun d => !isWS d) := rfl
    rw [hrv] at ih
    rw [buildWordMapAux, if_neg hws]
    refine List.chain'_cons'.mpr ⟨?_, ih⟩
    intro y hy
    have hmem : y ∈ buildWordMapAux ((c :: rest).dropWhile (fun d => !isWS d))
        (i + ((c :: rest).takeWhile (fun d => !isWS d)).length) :=
      List.mem_of_mem_head? hy
    exact (buildWordMapAux_bounds _ _ y hmem).1

theorem dropWhile_head_ws (l : List Char) (d0 : Char) (u' : List Char)
    (h : l.dropWhile (fun d => !isWS d) = d0 :: u') : isWS d0 = true := by
  have hw := List.head?_dropWhile_not (fun d => !isWS d) l
  rw [h] at hw
  simpa using hw

theorem buildWordMapAux_word (cs : List Char) (i : Nat) :
    ∀ p ∈ buildWordMapAux cs i,
      p.word.data = (cs.drop (p.start - i)).take (p.endPos - p.start) := by
  induction cs, i using buildWordMapAux.induct with
  | case1 i => simp [buildWordMapAux]
  | case2 c rest i hws ih =>
    intro p hp
    rw [buildWordMapAux, if_pos hws] at hp
    have hb := buildWordMapAux_bounds _ _ p hp
    rw [show p.start - i = (p.start - (i + 1)) + 1 from by omega, List.drop_succ_cons]
    exact ih p hp
  | case3 c rest i hws run ih =>
    have hrv : run = (c :: rest).takeWhile (fun d => !isWS d) := rfl
    rw [hrv] at ih
    intro p hp
    rw [buildWordMapAux, if_neg hws, List.mem_cons] at hp
    set t := (c :: rest).takeWhile (fun d => !isWS d) with htw
    set u := (c :: rest).dropWhile (fun d => !isWS d) with hdw
    have hsplit : c :: rest = t ++ u :=
      (List.takeWhile_append_dropWhile (l := c :: rest) (fun d => !isWS d)).symm
    rcases hp with hp | hp
    · subst hp
      show t = ((c :: rest).drop (i - i)).take (i + t.length - i)
      rw [Nat.sub_self, List.drop_zero, Nat.add_sub_cancel_left, hsplit]
      exact (List.take_left _ _).symm
    · have hb := buildWordMapAux_bounds _ _ p hp
      rw [ih p hp, hsplit,
        show p.start - i = t.length + (p.start - (i + t.length)) from by omega,
        List.drop_append]

theorem buildWordMapAux_word_nonWS (cs : List Char) (i : Nat) :
    ∀ p ∈ buildWordMapAux cs i, ∀ d ∈ p.word.data, isWS d = false := by
  induction cs, i using buildWordMapAux.induct with
  | case1 i => simp [buildWordMapAux]
  | case2 c rest i hws ih =>
    intro p hp
    rw [buildWordMapAux, if_pos hws] at hp
    exact ih p hp
  | case3 c rest i hws run ih =>
    intro p hp
    rw [buildWordMapAux, if_neg hws, List.mem_cons] at hp
    rcases hp with hp | hp
    · subst hp
      intro d hd
      simpa using List.mem_takeWhile_imp hd
    · exact ih p hp

theorem buildWordMapAux_end_ws (cs : List Char) (i : Nat) :
    ∀ p ∈ buildWordMapAux cs i, p.endPos - i < cs.length →
      isWS (cs.getD (p.endPos - i) ' ') = true := by
  induction cs, i using buildWordMapAux.induct with
  | case1 i => simp [buildWordMapAux]
  | case2 c rest i hws ih =>
    intro p hp h
    rw [buildWordMapAux, if_pos hws] at hp
    have hb := buildWordMapAux_bounds _ _ p hp
    rw [show p.endPos - i = (p.endPos - (i + 1)) + 1 from by omega, List.getD_cons_succ]
    refine ih p hp ?_
    simp only [List.length_cons] at h
    omega
  | case3 c rest i hws run ih =>
    have hrv : run = (c :: rest).takeWhile (fun d => !isWS d) := rfl
    rw [hrv] at ih
    intro p hp h
    rw [buildWordMapAux, if_neg hws, List.mem_cons] at hp
    set t := (c :: rest).takeWhile (fun d => !isWS d) with htw
    set u := (c :: rest).dropWhile (fun d => !isWS d) with hdw
    have hsplit : c :: rest = t ++ u :=
      (List.takeWhile_append_dropWhile (l := c :: rest) (fun d => !isWS d)).symm
    have hlen : t.length + u.length = (c :: rest).length := by
      rw [htw, hdw, ← List.length_append, List.takeWhile_append_dropWhile]
    rcases hp with hp | hp
    · subst hp
      replace h := show i + t.length - i < (c :: rest).length from h
      show isWS ((c :: rest).getD (i + t.length - i) ' ') = true
      rw [Nat.add_sub_cancel_left]
      have hune : u ≠ [] := by
        intro h0
        have hu0 : u.length = 0 := by rw [h0]; rfl
        omega
      obtain ⟨d0, u', hu0⟩ := List.exists_cons_of_ne_nil hune
      rw [hsplit, List.getD_append_right _ _ _ _ (le_refl _), Nat.sub_self, hu0,
        List.getD_cons_zero]
      exact dropWhile_head_ws (c :: rest) d0 u' (by rw [← hdw]; exact hu0)
    · have hb := buildWordMapAux_bounds _ _ p hp
      rw [hsplit, List.getD_append_right _ _ _ _ (by omega),
        show p.endPos - i - t.length = p.endPos - (i + t.length) from by omega]
      exact ih p hp (by omega)

theorem buildWordMapAux_start_ws (cs : List Char) (i : Nat) :
    ∀ p ∈ buildWordMapAux cs i,
      (p.start = i ∧ 0 < cs.length ∧ isWS (cs.getD 0 ' ') = false) ∨
      (i < p.start ∧ isWS (cs.getD (p.start - i - 1) ' ') = true) := by
  induction cs, i using buildWordMapAux.induct with
  | case1 i => simp [buildWordMapAux]
  | case2 c rest i hws ih =>
    intro p hp
    rw [buildWordMapAux, if_pos hws] at hp
    have hb := buildWordMapAux_bounds _ _ p hp
    right
    refine ⟨by omega, ?_⟩
    rcases ih p hp with ⟨hst, -, -⟩ | ⟨hlt, hid⟩
    · rw [show p.start - i - 1 = 0 from by omega, List.getD_cons_zero]
      exact hws
    · rw [show p.start - i - 1 = (p.start - (i + 1) - 1) + 1 from by omega,
        List.getD_cons_succ]
      exact hid
  | case3 c rest i hws run ih =>
    have hrv : run = (c :: rest).takeWhile (fun d => !isWS d) := rfl
    rw [hrv] at ih
    intro p hp
    rw [buildWordMapAux, if_neg hws, List.mem_cons] at hp
    set t := (c :: rest).takeWhile (fun d => !isWS d) with htw
    set u := (c :: rest).dropWhile (fun d => !isWS d) with hdw
    have hsplit : c :: rest = t ++ u :=
      (List.takeWhile_append_dropWhile (l := c :: rest) (fun d => !isWS d)).symm
    rcases hp with hp | hp
    · subst hp
      left
      refine ⟨rfl, by simp, ?_⟩
      rw [List.getD_cons_zero]
      simpa using hws
    · have hb := buildWordMapAux_bounds _ _ p hp
      rcases ih p hp with ⟨hst, hulen, huhd⟩ | ⟨hlt, hid⟩
      · exfalso
        obtain ⟨d0, u', hu0⟩ := List.exists_cons_of_ne_nil (List.length_pos.mp hulen)
        have hd0 : isWS d0 = true :=
          dropWhile_head_ws (c :: rest) d0 u' (by rw [← hdw]; exact hu0)
        rw [hu0, List.getD_cons_zero, hd0] at huhd
        exact absurd huhd (by simp)
      · right
        refine ⟨by omega, ?_⟩
        rw [hsplit, List.getD_append_right _ _ _ _ (by omega),
          show p.start - i - 1 - t.length = p.start - (i + t.length) - 1 from by omega]
        exact hid

theorem buildWordMapAux_coverage (cs : List Char) (i : Nat) :
    ∀ j, j < cs.length → isWS (cs.getD j ' ') = false →
      ∃ p ∈ buildWordMapAux cs i, p.start ≤ i + j ∧ i + j < p.endPos := by
  induction cs, i using buildWordMapAux.induct with
  | case1 i => simp
  | case2 c rest i hws ih =>
    intro j hj hns
    cases j with
    | zero =>
      rw [List.getD_cons_zero, hws] at hns
      exact absurd hns (by simp)
    | succ j =>
      rw [List.getD_cons_succ] at hns
      simp only [List.length_cons] at hj
      obtain ⟨p, hp, h1, h2⟩ := ih j (by omega) hns
      rw [buildWordMapAux, if_pos hws]
      exact ⟨p, hp, by omega, by omega⟩
  | case3 c rest i hws run ih =>
    have hrv : run = (c :: rest).takeWhile (fun d => !isWS d) := rfl
    rw [hrv] at ih
    intro j hj hns
    set t := (c :: rest).takeWhile (fun d => !isWS d) with htw
    set u := (c :: rest).dropWhile (fun d => !isWS d) with hdw
    have hsplit : c :: rest = t ++ u :=
      (List.takeWhile_append_dropWhile (l := c :: rest) (fun d => !isWS d)).symm
    have hlen : t.length + u.length = (c :: rest).length := by
      rw [htw, hdw, ← List.length_append, List.takeWhile_append_dropWhile]
    rw [buildWordMapAux, if_neg hws]
    by_cases hcase : j < t.length
    · refine ⟨_, List.mem_cons_self _ _, ?_, ?_⟩
      · show i ≤ i + j
        omega
      · show i + j < i + t.length
        omega
    · rw [hsplit, List.getD_append_right _ _ _ _ (by omega)] at hns
      obtain ⟨p, hp, h1, h2⟩ := ih (j - t.length) (by omega) hns
      exact ⟨p, List.mem_cons_of_mem _ hp, by omega, by omega⟩

/-! ## Lemmas about `findWordAtPosition` over sorted spans -/

theorem spans_endPos_le_start (l : List WordPosition)
    (hchain : List.Chain' (fun a b => a.endPos ≤ b.start) l)
    (hpos : ∀ p ∈ l, p.start < p.endPos) :
    ∀ i j (hi : i < l.length) (hj : j < l.length), i < j →
      (l.get ⟨i, hi⟩).endPos ≤ (l.get ⟨j, hj⟩).start := by
  have hc := List.chain'_iff_get.mp hchain
  intro i j hi hj hij
  obtain ⟨d, rfl⟩ : ∃ d, j = i + d + 1 := ⟨j - i - 1, by omega⟩
  clear hij
  induction d with
  | zero => exact hc i (by omega)
  | succ d ihd =>
    have hj' : i + d + 1 < l.length := by omega
    have h1 := ihd hj'
    have h2 := hpos _ (List.get_mem l (i + d + 1) hj')
    have h3 := hc (i + d + 1) (by omega)
    exact le_trans h1 (le_trans (le_of_lt h2) h3)

theorem findWordAux_all_le (c total : Nat) :
    ∀ (l : List WordPosition) (idx : Nat),
      (∀ p ∈ l, p.endPos ≤ c) → (∀ p ∈ l, p.start < p.endPos) →
      findWordAux c total l idx = (total : Int) - 1 := by
  intro l
  induction l with
  | nil => intro idx _ _; rfl
  | cons p rest ih =>
    intro idx hle hpos
    have h1 := hle p (List.mem_cons_self _ _)
    have h2 := hpos p (List.mem_cons_self _ _)
    simp only [findWordAux]
    rw [if_neg (by omega), if_neg (by omega)]
    exact ih (idx + 1) (fun q hq => hle q (List.mem_cons_of_mem _ hq))
      (fun q hq => hpos q (List.mem_cons_of_mem _ hq))

theorem findWordAux_found (c total : Nat) :
    ∀ (l : List WordPosition) (idx k : Nat) (hk : k < l.length),
      List.Chain' (fun a b => a.endPos ≤ b.start) l →
      (∀ p ∈ l, p.start < p.endPos) →
      (l.get ⟨k, hk⟩).start ≤ c → c < (l.get ⟨k, hk⟩).endPos →
      findWordAux c total l idx = (idx : Int) + k := by
  intro l
  induction l with
  | nil => intro idx k hk; simp at hk
  | cons p rest ih =>
    intro idx k hk hchain hpos h1 h2
    cases k with
    | zero =>
      have h1' : p.start ≤ c := h1
      have h2' : c < p.endPos := h2
      simp only [findWordAux]
      rw [if_pos ⟨h1', h2'⟩]
      simp
    | succ k =>
      have hk' : k < rest.length := by simpa using hk
      have hsk : p.endPos ≤ ((p :: rest).get ⟨k + 1, hk⟩).start :=
        spans_endPos_le_start (p :: rest) hchain hpos 0 (k + 1) (by simp) hk (by omega)
      have hp0 := hpos p (List.mem_cons_self _ _)
      have hce : p.endPos ≤ c := le_trans hsk h1
      simp only [findWordAux]
      rw [if_neg (by omega), if_neg (by omega)]
      have hrec := ih (idx + 1) k hk' hchain.tail
        (fun q hq => hpos q (List.mem_cons_of_mem _ hq)) h1 h2
      rw [hrec]
      push_cast
      ring

theorem findWordAux_gap (c total : Nat) :
    ∀ (l : List WordPosition) (idx k : Nat) (hk1 : k + 1 < l.length),
      List.Chain' (fun a b => a.endPos ≤ b.start) l →
      (∀ p ∈ l, p.start < p.endPos) →
      (l.get ⟨k, by omega⟩).endPos ≤ c → c < (l.get ⟨k + 1, hk1⟩).start →
      findWordAux c total l idx = (idx : Int) + k := by
  intro l
  induction l with
  | nil => intro idx k hk1; simp at hk1
  | cons p rest ih =>
    intro idx k hk1 hchain hpos h1 h2
    cases k with
    | zero =>
      have h1' : p.endPos ≤ c := h1
      have hp0 := hpos p (List.mem_cons_self _ _)
      simp only [findWordAux]
      rw [if_neg (by omega), if_neg (by omega)]
      cases rest with
      | nil => simp at hk1
      | cons q rest' =>
        have h2' : c < q.start := h2
        simp only [findWordAux]
        rw [if_neg (by omega), if_pos (by omega)]
        push_cast
        omega
    | succ k =>
      have hk' : k + 1 < rest.length := by simpa using hk1
      have hsk : p.endPos ≤ ((p :: rest).get ⟨k + 1, by omega⟩).start :=
        spans_endPos_le_start (p :: rest) hchain hpos 0 (k + 1) (by simp) (by omega)
          (by omega)
      have hmid := hpos _ (List.get_mem (p :: rest) (k + 1) (by omega))
      have hce : p.endPos ≤ c := by
        have hh : ((p :: rest).get ⟨k + 1, by omega⟩).endPos ≤ c := h1
        omega
      have hp0 := hpos p (List.mem_cons_self _ _)
      simp only [findWordAux]
      rw [if_neg (by omega), if_neg (by omega)]
      have hrec := ih (idx + 1) k hk' hchain.tail
        (fun q hq => hpos q (List.mem_cons_of_mem _ hq)) h1 h2
      rw [hrec]
      push_cast
      ring

theorem findWordAtPosition_before_first (l : List WordPosition) (hne : l ≠ [])
    (c : Nat) (hc : c < (l.head hne).start) : findWordAtPosition c l = 0 := by
  cases l with
  | nil => exact absurd rfl hne
  | cons q rest =>
    have hc' : c < q.start := hc
    simp only [findWordAtPosition, findWordAux]
    rw [if_neg (by omega), if_pos hc']
    decide

theorem findWordAtPosition_past_end (l : List WordPosition) (hne : l ≠ [])
    (c : Nat)
    (hchain : List.Chain' (fun a b => a.endPos ≤ b.start) l)
    (hpos : ∀ p ∈ l, p.start < p.endPos)
    (hc : (l.getLast hne).endPos ≤ c) :
    findWordAtPosition c l = (l.length : Int) - 1 := by
  refine findWordAux_all_le c l.length l 0 ?_ hpos
  intro p hp
  obtain ⟨⟨m, hmlt⟩, hm⟩ := List.mem_iff_get.mp hp
  rw [List.getLast_eq_get] at hc
  have hlenpos : 0 < l.length := by
    cases l with
    | nil => exact absurd rfl hne
    | cons _ _ => simp
  by_cases hlast : m = l.length - 1
  · subst hlast
    rw [← hm]
    exact hc
  · have hmlt' : m < l.length - 1 := by omega
    have h1 := spans_endPos_le_start l hchain hpos m (l.length - 1) hmlt (by omega)
      (by omega)
    have h2 := hpos _ (List.get_mem l (l.length - 1) (by omega))
    rw [← hm]
    omega

/-- Characters strictly inside a span of `buildWordMap` are non-whitespace
(the span's recorded word is a slice of the text and contains no `\s`). -/
theorem span_char_nonWS (t : String) (p : WordPosition) (hp : p ∈ buildWordMap t)
    (j : Nat) (h1 : p.start ≤ j) (h2 : j < p.endPos) (hj : j < t.data.length) :
    isWS (t.data.get ⟨j, hj⟩) = false := by
  have hw := buildWordMapAux_word t.data 0 p hp
  rw [Nat.sub_zero] at hw
  refine buildWordMapAux_word_nonWS t.data 0 p hp _ ?_
  rw [hw]
  refine List.mem_iff_getElem.mpr ⟨j - p.start, ?_, ?_⟩
  · rw [List.length_take, List.length_drop]
    omega
  · rw [List.getElem_take, List.getElem_drop, List.get_eq_getElem]
    congr 1
    show p.start + (j - p.start) = j
    omega

/-- C5.  The position-resolution policy of `findWordAtPosition` over any
word index built from a text: exact in-span hits (both ends of a span
resolve to that span), inter-word gaps resolve to the preceding word,
offsets before the first span clamp to 0, offsets at or past the end of
the last span return the last index, and the empty index returns -1 for
every offset. -/
theorem findWordAt_policy (t : String) :
    (∀ i (h : i < (buildWordMap t).length),
      findWordAtPosition ((buildWordMap t).get ⟨i, h⟩).start (buildWordMap t) = i) ∧
    (∀ i (h : i < (buildWordMap t).length),
      findWordAtPosition (((buildWordMap t).get ⟨i, h⟩).endPos - 1) (buildWordMap t) = i) ∧
    (∀ i (h : i + 1 < (buildWordMap t).length) (off : Nat),
      ((buildWordMap t).get ⟨i, by omega⟩).endPos ≤ off →
      off < ((buildWordMap t).get ⟨i + 1, h⟩).start →
      findWordAtPosition off (buildWordMap t) = i) ∧
    (∀ (hne : buildWordMap t ≠ []) (off : Nat),
      off < ((buildWordMap t).head hne).start →
      findWordAtPosition off (buildWordMap t) = 0) ∧
    (∀ (hne : buildWordMap t ≠ []) (off : Nat),
      ((buildWordMap t).getLast hne).endPos ≤ off →
      findWordAtPosition off (buildWordMap t) = ((buildWordMap t).length : Int) - 1) ∧
    (∀ off : Nat, findWordAtPosition off ([] : List WordPosition) = -1) := by
  have hchain := buildWordMapAux_chain t.data 0
  have hpos : ∀ p ∈ buildWordMap t, p.start < p.endPos :=
    fun p hp => (buildWordMapAux_bounds t.data 0 p hp).2.1
  refine ⟨?_, ?_, ?_, ?_, ?_, ?_⟩
  · intro i h
    have hpi := hpos _ (List.get_mem (buildWordMap t) i h)
    have := findWordAux_found ((buildWordMap t).get ⟨i, h⟩).start
      (buildWordMap t).length (buildWordMap t) 0 i h hchain hpos (le_refl _)
      (by omega)
    simpa [findWordAtPosition] using this
  · intro i h
    have hpi := hpos _ (List.get_mem (buildWordMap t) i h)
    have := findWordAux_found (((buildWordMap t).get ⟨i, h⟩).endPos - 1)
      (buildWordMap t).length (buildWordMap t) 0 i h hchain hpos (by omega)
      (by omega)
    simpa [findWordAtPosition] using this
  · intro i h off h1 h2
    have := findWordAux_gap off (buildWordMap t).length (buildWordMap t) 0 i h
      hchain hpos h1 h2
    simpa [findWordAtPosition] using this
  · intro hne off hoff
    exact findWordAtPosition_before_first _ hne off hoff
  · intro hne off hoff
    exact findWordAtPosition_past_end _ hne off hchain hpos hoff
  · intro off
    simp [findWordAtPosition, findWordAux]

/-- Concrete word map for the witnesses below. -/
theorem buildWordMap_ws_ab_cd :
    buildWordMap " ab cd" = [⟨1, 3, "ab"⟩, ⟨4, 6, "cd"⟩] := by
  simp [buildWordMap, buildWordMapAux, isWS]

/-- Witness for C5 on `" ab cd"` (spans `[1,3)` and `[4,6)`): in-span
hits, the gap offset 3, the before-first offset 0, the past-end offset 9,
and the empty index. -/
theorem findWordAt_policy_witness :
    findWordAtPosition 1 (buildWordMap " ab cd") = 0 ∧
    findWordAtPosition 2 (buildWordMap " ab cd") = 0 ∧
    findWordAtPosition 3 (buildWordMap " ab cd") = 0 ∧
    findWordAtPosition 0 (buildWordMap " ab cd") = 0 ∧
    findWordAtPosition 9 (buildWordMap " ab cd") = 1 ∧
    findWordAtPosition 5 ([] : List WordPosition) = -1 := by
  obtain ⟨h1, h2, h3, h4, h5, h6⟩ := findWordAt_policy " ab cd"
  refine ⟨?_, ?_, ?_, ?_, ?_, h6 5⟩
  · have := h1 0 (by rw [buildWordMap_ws_ab_cd]; decide)
    simpa [buildWordMap_ws_ab_cd] using this
  · have := h2 0 (by rw [buildWordMap_ws_ab_cd]; decide)
    simpa [buildWordMap_ws_ab_cd] using this
  · have := h3 0 (by rw [buildWordMap_ws_ab_cd]; decide) 3
      (by simp [buildWordMap_ws_ab_cd]) (by simp [buildWordMap_ws_ab_cd])
    simpa using this
  · have := h4 (by rw [buildWordMap_ws_ab_cd]; decide) 0
      (by simp [buildWordMap_ws_ab_cd])
    simpa using this
  · have := h5 (by rw [buildWordMap_ws_ab_cd]; decide) 9
      (by simp [buildWordMap_ws_ab_cd])
    simpa [buildWordMap_ws_ab_cd] using this

/-- C6.  `buildWordMap` emits spans with `start < end`, consecutive spans
ordered (`end_i ≤ start_{i+1}`, hence strictly increasing `start`), the
empty string yields `[]`, a position carries a non-whitespace character
iff it is covered by a span (so punctuation adjacent to letters stays
inside its word's span), the covering span is unique, and each span is
maximal: the character right after a span (if any) is whitespace, and the
character right before a span (if the span does not start at 0) is
whitespace.  Determinism, totality and absence of side effects are
inherent: `buildWordMap` is a total pure Lean function. -/
theorem buildWordIndex_spans (t : String) :
    (∀ i (h : i < (buildWordMap t).length),
      ((buildWordMap t).get ⟨i, h⟩).start < ((buildWordMap t).get ⟨i, h⟩).endPos) ∧
    (∀ i (h : i + 1 < (buildWordMap t).length),
      ((buildWordMap t).get ⟨i, by omega⟩).endPos ≤
        ((buildWordMap t).get ⟨i + 1, h⟩).start) ∧
    (∀ i (h : i + 1 < (buildWordMap t).length),
      ((buildWordMap t).get ⟨i, by omega⟩).start <
        ((buildWordMap t).get ⟨i + 1, h⟩).start) ∧
    buildWordMap "" = [] ∧
    (∀ j (hj : j < t.data.length),
      (isWS (t.data.get ⟨j, hj⟩) = false ↔
        ∃ i, ∃ hi : i < (buildWordMap t).length,
          ((buildWordMap t).get ⟨i, hi⟩).start ≤ j ∧
          j < ((buildWordMap t).get ⟨i, hi⟩).endPos)) ∧
    (∀ i i' (hi : i < (buildWordMap t).length) (hi' : i' < (buildWordMap t).length)
      (j : Nat),
      ((buildWordMap t).get ⟨i, hi⟩).start ≤ j →
      j < ((buildWordMap t).get ⟨i, hi⟩).endPos →
      ((buildWordMap t).get ⟨i', hi'⟩).start ≤ j →
      j < ((buildWordMap t).get ⟨i', hi'⟩).endPos → i = i') ∧
    (∀ i (hi : i < (buildWordMap t).length),
      ∀ h : ((buildWordMap t).get ⟨i, hi⟩).endPos < t.data.length,
        isWS (t.data.get ⟨((buildWordMap t).get ⟨i, hi⟩).endPos, h⟩) = true) ∧
    (∀ i (hi : i < (buildWordMap t).length),
      ((buildWordMap t).get ⟨i, hi⟩).start = 0 ∨
      ∃ h : ((buildWordMap t).get ⟨i, hi⟩).start - 1 < t.data.length,
        isWS (t.data.get ⟨((buildWordMap t).get ⟨i, hi⟩).start - 1, h⟩) = true) := by
  have hchain : List.Chain' (fun a b => a.endPos ≤ b.start) (buildWordMap t) :=
    buildWordMapAux_chain t.data 0
  have hcg := List.chain'_iff_get.mp hchain
  have hpos : ∀ i (h : i < (buildWordMap t).length),
      ((buildWordMap t).get ⟨i, h⟩).start < ((buildWordMap t).get ⟨i, h⟩).endPos :=
    fun i h => (buildWordMapAux_bounds t.data 0 _ (List.get_mem _ i h)).2.1
  have hposm : ∀ p ∈ buildWordMap t, p.start < p.endPos :=
    fun p hp => (buildWordMapAux_bounds t.data 0 p hp).2.1
  refine ⟨hpos, ?_, ?_, ?_, ?_, ?_, ?_, ?_⟩
  · intro i h
    exact hcg i (by omega)
  · intro i h
    have h1 := hpos i (by omega)
    have h2 := hcg i (by omega)
    omega
  · show buildWordMapAux [] 0 = []
    simp [buildWordMapAux]
  · intro j hj
    constructor
    · intro hns
      have hns' : isWS (t.data.getD j ' ') = false := by
        rw [List.getD_eq_get t.data ' ' hj]
        exact hns
      obtain ⟨p, hp, hp1, hp2⟩ := buildWordMapAux_coverage t.data 0 j hj hns'
      have hp' : p ∈ buildWordMap t := hp
      obtain ⟨⟨i, hi⟩, hm⟩ := List.mem_iff_get.mp hp'
      refine ⟨i, hi, ?_, ?_⟩
      · rw [hm]; omega
      · rw [hm]; omega
    · rintro ⟨i, hi, h1, h2⟩
      exact span_char_nonWS t _ (List.get_mem _ i hi) j h1 h2 hj
  · intro i i' hi hi' j h1 h2 h3 h4
    rcases Nat.lt_trichotomy i i' with hlt | heq | hgt
    · have := spans_endPos_le_start (buildWordMap t) hchain hposm i i' hi hi' hlt
      omega
    · exact heq
    · have := spans_endPos_le_start (buildWordMap t) hchain hposm i' i hi' hi hgt
      omega
  · intro i hi h
    have := buildWordMapAux_end_ws t.data 0 _ (List.get_mem _ i hi)
      (by rw [Nat.sub_zero]; exact h)
    rw [Nat.sub_zero, List.getD_eq_get t.data ' ' h] at this
    exact this
  · intro i hi
    have hb := buildWordMapAux_bounds t.data 0 _ (List.get_mem _ i hi)
    rcases buildWordMapAux_start_ws t.data 0 _ (List.get_mem _ i hi) with
      ⟨hst, -, -⟩ | ⟨-, hid⟩
    · exact Or.inl hst
    · have hlt : ((buildWordMap t).get ⟨i, hi⟩).start - 1 < t.data.length := by omega
      refine Or.inr ⟨hlt, ?_⟩
      rw [← List.getD_eq_get t.data ' ' hlt]
      simpa using hid

theorem ws_ab_cd_len_pos : 0 < (buildWordMap " ab cd").length := by
  rw [buildWordMap_ws_ab_cd]
  decide

/-- Witness for C6 on `" ab cd"`: span order, the empty-string case,
coverage of the non-whitespace position 1, and whitespace just after
span 0 (position 3). -/
theorem buildWordIndex_spans_witness :
    ((buildWordMap " ab cd").get ⟨0, ws_ab_cd_len_pos⟩).start <
      ((buildWordMap " ab cd").get ⟨0, ws_ab_cd_len_pos⟩).endPos ∧
    buildWordMap "" = [] ∧
    (isWS (" ab cd".data.get ⟨1, by decide⟩) = false ↔
      ∃ i, ∃ hi : i < (buildWordMap " ab cd").length,
        ((buildWordMap " ab cd").get ⟨i, hi⟩).start ≤ 1 ∧
        1 < ((buildWordMap " ab cd").get ⟨i, hi⟩).endPos) ∧
    (∀ h : ((buildWordMap " ab cd").get ⟨0, ws_ab_cd_len_pos⟩).endPos < " ab cd".data.length,
      isWS (" ab cd".data.get
        ⟨((buildWordMap " ab cd").get ⟨0, ws_ab_cd_len_pos⟩).endPos, h⟩) = true) := by
  obtain ⟨ha, hb, hc, hd, he, hf, hg, hh⟩ := buildWordIndex_spans " ab cd"
  exact ⟨ha 0 ws_ab_cd_len_pos, hd, he 1 (by decide), hg 0 ws_ab_cd_len_pos⟩

/-- C10.  Every span `{start, end, word}` of `buildWordMap text` records
as `word` exactly `text.slice(start, end)` (the characters of the text
from `start` inclusive to `end` exclusive), and that word contains no
whitespace character. -/
theorem buildWordMap_word_is_slice (t : String) :
    ∀ i (h : i < (buildWordMap t).length),
      ((buildWordMap t).get ⟨i, h⟩).word =
        ⟨(t.data.drop ((buildWordMap t).get ⟨i, h⟩).start).take
          (((buildWordMap t).get ⟨i, h⟩).endPos -
            ((buildWordMap t).get ⟨i, h⟩).start)⟩ ∧
      ∀ d ∈ ((buildWordMap t).get ⟨i, h⟩).word.data, isWS d = false := by
  intro i h
  have hw := buildWordMapAux_word t.data 0 _ (List.get_mem (buildWordMap t) i h)
  rw [Nat.sub_zero] at hw
  refine ⟨?_, buildWordMapAux_word_nonWS t.data 0 _ (List.get_mem (buildWordMap t) i h)⟩
  exact congrArg String.mk hw

/-- Witness for C10 on `" ab cd"`: span 0 records exactly the slice
`[1, 3)` of the text, and its characters are non-whitespace. -/
theorem buildWordMap_word_is_slice_witness :
    ((buildWordMap " ab cd").get ⟨0, ws_ab_cd_len_pos⟩).word =
      ⟨(" ab cd".data.drop ((buildWordMap " ab cd").get ⟨0, ws_ab_cd_len_pos⟩).start).take
        (((buildWordMap " ab cd").get ⟨0, ws_ab_cd_len_pos⟩).endPos -
          ((buildWordMap " ab cd").get ⟨0, ws_ab_cd_len_pos⟩).start)⟩ ∧
    ∀ d ∈ ((buildWordMap " ab cd").get ⟨0, ws_ab_cd_len_pos⟩).word.data,
      isWS d = false :=
  buildWordMap_word_is_slice " ab cd" 0 ws_ab_cd_len_pos

end Babble
